import Mathlib

/-!
# Verification of the news-analyzer preprocessing and feature pipeline

Shallow embedding of `src/preprocess.py` and `src/features.py` (polars /
pandas column pipelines over multi-ticker 5-minute bar data).

Modelling conventions:
* A ticker partition's column is a `List ℚ` (closes; timestamps are
  `List ℤ`, in minutes), already sorted by timestamp, as the code sorts by
  `["TICKER", "TIMESTAMP"]` before every windowed/recursive operation.
* `Expr.over("TICKER")` applies a column kernel independently to each ticker
  partition; frames are lists of partitions and the frame versions of the
  operations map the kernel over the partitions.
* Machine floats are modelled by `FP`: exact rationals extended with the two
  infinities and NaN, with IEEE-754 semantics for the arithmetic the code
  performs on possibly non-finite values (the `RET_FWD_1` division, RSI's
  `100 - 100/(1+rs)` chain).  Where a column provably stays finite we use ℚ.
  (The embedding does not model rounding: the claims under verification are
  about the algebraic / non-finite structure, not about rounding error.)
* Null (missing) entries are `Option`; polars arithmetic and comparisons
  propagate null, and `filter` / `drop_nulls` drop rows whose mask entry is
  null or false.
-/

set_option autoImplicit false

/-! ## Definitions -/

/-- Model of an IEEE-754 double as seen by the pipeline: an exact finite
rational, `+∞`, `-∞`, or NaN. -/
inductive FP where
  | fin (q : ℚ)
  | inf
  | ninf
  | nan
deriving DecidableEq, Repr

namespace FP

/-- IEEE negation. -/
def neg : FP → FP
  | fin q => fin (-q)
  | inf => ninf
  | ninf => inf
  | nan => nan

/-- IEEE addition (∞ + -∞ = NaN; NaN propagates). -/
def add : FP → FP → FP
  | fin a, fin b => fin (a + b)
  | fin _, inf => inf
  | fin _, ninf => ninf
  | inf, fin _ => inf
  | ninf, fin _ => ninf
  | inf, inf => inf
  | ninf, ninf => ninf
  | inf, ninf => nan
  | ninf, inf => nan
  | nan, _ => nan
  | _, nan => nan

/-- IEEE subtraction, `a - b = a + (-b)`. -/
def sub (a b : FP) : FP := add a (neg b)

/-- IEEE division restricted to the cases the pipeline can produce (the model
has a single zero, matching the nonnegative zeros that arise here):
finite/0 is a signed infinity or, for 0/0, NaN; finite/∞ is 0; ∞/∞ is NaN;
NaN propagates. -/
def div : FP → FP → FP
  | fin a, fin b =>
      if b = 0 then (if 0 < a then inf else if a < 0 then ninf else nan)
      else fin (a / b)
  | fin _, inf => fin 0
  | fin _, ninf => fin 0
  | inf, fin b => if 0 ≤ b then inf else ninf
  | ninf, fin b => if 0 ≤ b then ninf else inf
  | inf, inf => nan
  | inf, ninf => nan
  | ninf, inf => nan
  | ninf, ninf => nan
  | nan, _ => nan
  | _, nan => nan

/-- A value is finite when it is `fin q` for some rational `q`. -/
def isFinite : FP → Prop
  | fin _ => True
  | _ => False

instance : DecidablePred isFinite := by
  intro v; cases v <;> simp [isFinite] <;> infer_instance

end FP

/-- The smoothing factor `α = 2/(span+1)` used by
`ewm_mean(span=·, adjust=False)`. -/
def emaAlpha (span : ℕ) : ℚ := 2 / (span + 1)

/-- Tail of the non-adjusted EWM recursion: previous smoothed value `p`,
remaining inputs `xs`; emits `α·x + (1-α)·p` at each step. -/
def emaFrom (α p : ℚ) : List ℚ → List ℚ
  | [] => []
  | x :: xs =>
      let y := α * x + (1 - α) * p
      y :: emaFrom α y xs

/-- Model of `Expr.ewm_mean(span, adjust=False)` (polars, `src/features.py`) /
`Series.ewm(span, adjust=False).mean()` (pandas, RSI path) on one ticker
partition's all-valid column: `y[0] = x[0]`,
`y[t] = (1-α)·y[t-1] + α·x[t]`, seeded at the partition's own first
value. -/
def ewm_mean (α : ℚ) : List ℚ → List ℚ
  | [] => []
  | x :: xs => x :: emaFrom α x xs

/-- Model of `add_ema` (`src/features.py`) over the sorted frame: the expression
`ewm_mean(span).over("TICKER")` computes each partition's EMA column from
that partition's own values only.  Each partition is kept with its input
column and its EMA column. -/
def add_ema_frame (α : ℚ) (f : List (String × List ℚ)) :
    List (String × List ℚ × List ℚ) :=
  f.map (fun p => (p.1, p.2, ewm_mean α p.2))

/-- Tail of `Expr.diff()`: previous value `p`, remaining values. -/
def diffGo (p : ℤ) : List ℤ → List (Option ℤ)
  | [] => []
  | y :: ys => some (y - p) :: diffGo y ys

/-- Model of `Expr.diff()` on one ticker partition's timestamp column: null at the
first row, `ts[t] - ts[t-1]` afterwards. -/
def diffCol : List ℤ → List (Option ℤ)
  | [] => []
  | x :: xs => none :: diffGo x xs

/-- Step 4 of `preprocess_data` (`src/preprocess.py`) on one ticker
partition: attach `DELTA = TIMESTAMP.diff().over("TICKER")`, keep rows with
`DELTA == pl.duration(minutes=5)` (cadence `cad`), drop `DELTA`.  Rows with
null delta (each partition's first row) have a null mask and are dropped. -/
def contigFilter (cad : ℤ) (ts : List ℤ) : List ℤ :=
  ((ts.zip (diffCol ts)).filter (fun r => r.2 = some cad)).map (fun r => r.1)

/-- One raw row of the frame at step 3 of `preprocess_data`. -/
structure Row where
  ticker : String
  ts : ℤ
  close : ℚ
deriving DecidableEq

/-- The `n_rows` of the `group_by("TICKER").agg(pl.len())` aggregation for one
ticker. -/
def tickerRowCount (rows : List Row) (tk : String) : ℕ :=
  (rows.filter (fun r => r.ticker = tk)).length

/-- Step 3 of `preprocess_data`: `valid_tickers` are the tickers with
`n_rows > min_samples_per_ticker`; the frame is filtered by
`TICKER.is_in(valid_tickers)`, i.e. a row survives iff its ticker's total
row count strictly exceeds the threshold. -/
def filterTickers (minSamples : ℕ) (rows : List Row) : List Row :=
  rows.filter (fun r => minSamples < tickerRowCount rows r.ticker)

/-- One output row of the target builder (step 5 of `preprocess_data`). -/
structure TgtRow where
  close : ℚ
  close_fwd_1 : Option ℚ
  ret_fwd_1 : Option FP
  up_next : Option ℤ
deriving DecidableEq

/-- Model of `CLOSE.shift(-1)` within one partition: pair each close with its
successor (none at the last row). -/
def withNext : List ℚ → List (ℚ × Option ℚ)
  | [] => []
  | [c] => [(c, none)]
  | c :: d :: tl => (c, some d) :: withNext (d :: tl)

/-- The `with_columns` stage building `RET_FWD_1 = (CLOSE_FWD_1-CLOSE)/CLOSE`
and `UP_NEXT = (CLOSE_FWD_1 > CLOSE).cast(Int8)` from `CLOSE` and
`CLOSE_FWD_1`; arithmetic and comparison on a null forward close are null. -/
def mkTgtRow (c : ℚ) (f : Option ℚ) : TgtRow :=
  { close := c
    close_fwd_1 := f
    ret_fwd_1 := f.map (fun fv => FP.div (FP.sub (.fin fv) (.fin c)) (.fin c))
    up_next := f.map (fun fv => if c < fv then (1 : ℤ) else 0) }

/-- Step 5 of `preprocess_data` on one ticker partition's close column:
build the three target columns, then `drop_nulls(subset=["CLOSE_FWD_1"])`. -/
def add_targets (xs : List ℚ) : List TgtRow :=
  ((withNext xs).map (fun p => mkTgtRow p.1 p.2)).filter
    (fun r => r.close_fwd_1.isSome)

/-- The trailing window of width `w` ending at row `t`. -/
def windowAt (w : ℕ) (xs : List ℚ) (t : ℕ) : List ℚ :=
  (xs.take (t + 1)).drop (t + 1 - w)

/-- polars `Expr.rolling_*(window_size=w, min_periods=m)`: at row `t` the
window is the trailing `min (t+1) w` values ending at `t`; the output is
null unless the window holds at least `m` values.  When `min_periods` is
not passed, polars sets it equal to `window_size`. -/
def rolling_agg (w m : ℕ) (f : List ℚ → ℚ) (xs : List ℚ) : List (Option ℚ) :=
  (List.range xs.length).map
    (fun t => if m ≤ min (t + 1) w then some (f (windowAt w xs t)) else none)

/-- Arithmetic mean of a window. -/
def listMean (l : List ℚ) : ℚ := l.sum / l.length

/-- Sample variance (`ddof = 1`, polars' default for `rolling_std`) of a
window; the rolling std is its pointwise square root, which is defined for
every non-null entry, so the std column has exactly the null pattern of this
column — the claims under verification only concern definedness, never a
std value. -/
def sampleVar (l : List ℚ) : ℚ :=
  ((l.map (fun x => (x - listMean l) ^ 2)).sum) / ((l.length - 1 : ℕ) : ℚ)

/-- Model of `add_sma` (`src/features.py`): `rolling_mean(window_size=w,
min_periods=w)` over the ticker partition. -/
def add_sma (w : ℕ) (xs : List ℚ) : List (Option ℚ) :=
  rolling_agg w w listMean xs

/-- The `BB_MID_{w}` column of `add_bollinger_bands` (`src/features.py`):
`rolling_mean(window_size=w)` — `min_periods` omitted, hence `= w`. -/
def bollinger_mid (w : ℕ) (xs : List ℚ) : List (Option ℚ) :=
  rolling_agg w w listMean xs

/-- The square of `add_bollinger_bands`' rolling std column:
`rolling_std(window_size=w)` — `min_periods` omitted, hence `= w`. -/
def bollinger_stdsq (w : ℕ) (xs : List ℚ) : List (Option ℚ) :=
  rolling_agg w w sampleVar xs

/-- Combine `mid + k·std` with polars null propagation; `BB_UPPER_{w}` is
`optBand k` and `BB_LOWER_{w}` is `optBand (-k)` of the mid and std
columns. -/
def optBand (k : ℚ) : Option ℚ → Option ℚ → Option ℚ
  | some m, some s => some (m + k * s)
  | _, _ => none

/-- Model of `add_macd` (`src/features.py`) on one ticker partition's source column:
four sequential `with_columns` stages — the short and long price EMAs,
`MACD` as their pointwise difference, `MACD_SIGNAL` as the signal-span EMA
of the materialized `MACD` column, `MACD_HIST = MACD - MACD_SIGNAL`.
Returns (`MACD`, `MACD_SIGNAL`, `MACD_HIST`); the temporary EMA columns are
dropped. -/
def add_macd (shortSpan longSpan signalSpan : ℕ) (xs : List ℚ) :
    List ℚ × List ℚ × List ℚ :=
  let shortE := ewm_mean (emaAlpha shortSpan) xs
  let longE := ewm_mean (emaAlpha longSpan) xs
  let macd := List.zipWith (fun a b => a - b) shortE longE
  let sig := ewm_mean (emaAlpha signalSpan) macd
  let hist := List.zipWith (fun a b => a - b) macd sig
  (macd, sig, hist)

/-- Model of `close.diff()` of `_rsi_per_ticker` (`src/features.py`) restricted to
its valid entries (rows `1..n-1`): `delta[t] = close[t] - close[t-1]`; the
first row's delta is NaN and is handled in `add_rsi` below. -/
def rsi_deltas (xs : List ℚ) : List ℚ :=
  List.zipWith (fun a b => a - b) xs.tail xs

/-- Model of `delta.clip(lower=0)` on the valid deltas. -/
def rsi_gains (xs : List ℚ) : List ℚ := (rsi_deltas xs).map (fun d => max d 0)

/-- Model of `-delta.clip(upper=0)` on the valid deltas. -/
def rsi_losses (xs : List ℚ) : List ℚ :=
  (rsi_deltas xs).map (fun d => max (-d) 0)

/-- The kernel `rsi = 100 - 100/(1 + g/l)` in IEEE arithmetic
(`rs = avg_gain/avg_loss`). -/
def rsiVal (g l : FP) : FP :=
  FP.sub (.fin 100) (.div (.fin 100) (.add (.fin 1) (.div g l)))

/-- Model of `add_rsi` / `_rsi_per_ticker` (`src/features.py`) on one ticker
partition's close column.  `delta = close.diff()` is NaN at the first row
only; `clip` preserves that NaN, and pandas
`ewm(span, adjust=False).mean()` emits NaN there and seeds the non-adjusted
recursion at the first valid entry (row 1).  So `avg_gain`/`avg_loss` are a
leading NaN followed by `ewm_mean` of the valid gains/losses, combined
pointwise by `100 - 100/(1+rs)`. -/
def add_rsi (α : ℚ) (xs : List ℚ) : List FP :=
  match xs with
  | [] => []
  | _ :: _ =>
      List.zipWith rsiVal
        (FP.nan :: (ewm_mean α (rsi_gains xs)).map .fin)
        (FP.nan :: (ewm_mean α (rsi_losses xs)).map .fin)

/-! ## Supporting lemmas -/

theorem zipWith_getElem_some {α β γ : Type} (f : α → β → γ)
    (as : List α) (bs : List β) (i : ℕ) (a : α) (b : β)
    (ha : as[i]? = some a) (hb : bs[i]? = some b) :
    (List.zipWith f as bs)[i]? = some (f a b) := by
  induction as generalizing bs i with
  | nil => simp at ha
  | cons x xs ih =>
    cases bs with
    | nil => simp at hb
    | cons y ys =>
      cases i with
      | zero =>
        simp at ha hb
        simp [ha, hb]
      | succ j =>
        simp at ha hb ⊢
        exact ih ys j ha hb

@[simp] theorem emaFrom_length (α p : ℚ) (xs : List ℚ) :
    (emaFrom α p xs).length = xs.length := by
  induction xs generalizing p with
  | nil => rfl
  | cons x xs ih => simp [emaFrom, ih]

@[simp] theorem ewm_mean_length (α : ℚ) (xs : List ℚ) :
    (ewm_mean α xs).length = xs.length := by
  cases xs with
  | nil => rfl
  | cons x xs => simp [ewm_mean]

theorem emaFrom_rec (α p : ℚ) (xs : List ℚ) (t : ℕ) (x y : ℚ)
    (hx : xs[t + 1]? = some x) (hy : (emaFrom α p xs)[t]? = some y) :
    (emaFrom α p xs)[t + 1]? = some (α * x + (1 - α) * y) := by
  induction xs generalizing p t with
  | nil => simp at hx
  | cons a as ih =>
    cases t with
    | zero =>
      cases as with
      | nil => simp at hx
      | cons b bs =>
        simp [emaFrom] at hy ⊢
        simp at hx
        subst hx hy
        ring_nf
    | succ s =>
      simp [emaFrom] at hx hy ⊢
      exact ih (α * a + (1 - α) * p) s hx hy

theorem ewm_mean_head (α x : ℚ) (xs : List ℚ) :
    (ewm_mean α (x :: xs))[0]? = some x := by
  simp [ewm_mean]

theorem ewm_mean_rec (α : ℚ) (xs : List ℚ) (t : ℕ) (x y : ℚ)
    (hx : xs[t + 1]? = some x) (hy : (ewm_mean α xs)[t]? = some y) :
    (ewm_mean α xs)[t + 1]? = some (α * x + (1 - α) * y) := by
  cases xs with
  | nil => simp at hx
  | cons a as =>
    cases t with
    | zero =>
      cases as with
      | nil => simp at hx
      | cons b bs =>
        simp [ewm_mean] at hy ⊢
        simp at hx
        subst hx hy
        simp [emaFrom]
    | succ s =>
      simp [ewm_mean] at hy ⊢
      simp at hx
      exact emaFrom_rec α a as s x y hx hy

theorem contigFilter_cons (cad x : ℤ) (xs : List ℤ) :
    contigFilter cad (x :: xs) =
      ((xs.zip (diffGo x xs)).filter (fun r => r.2 = some cad)).map
        (fun r => r.1) := by
  simp [contigFilter, diffCol]

theorem diffGo_zip_mem (cad : ℤ) (xs : List ℤ) : ∀ (p b : ℤ),
    (b, some cad) ∈ xs.zip (diffGo p xs) → b - cad ∈ p :: xs := by
  induction xs with
  | nil => intro p b h; simp at h
  | cons y ys ih =>
    intro p b h
    simp only [diffGo, List.zip_cons_cons, List.mem_cons] at h
    rcases h with h | h
    · rw [Prod.mk.injEq, Option.some.injEq] at h
      have hb : b - cad = p := by omega
      simp [hb]
    · rcases List.mem_cons.mp (ih y b h) with h1 | h1
      · simp [h1]
      · simp [List.mem_cons.mpr (Or.inr h1)]

theorem contigFilter_mem_pred (cad : ℤ) (ts : List ℤ) (b : ℤ)
    (hb : b ∈ contigFilter cad ts) : b - cad ∈ ts := by
  cases ts with
  | nil => simp [contigFilter] at hb
  | cons x xs =>
    rw [contigFilter_cons] at hb
    obtain ⟨r, hr, hr1⟩ := List.mem_map.mp hb
    obtain ⟨hz, hp⟩ := List.mem_filter.mp hr
    have hr2 : r.2 = some cad := by simpa using hp
    have : (b, some cad) ∈ xs.zip (diffGo x xs) := by
      rw [← hr1, ← hr2]
      exact hz
    exact diffGo_zip_mem cad xs x b this

theorem contigFilter_chain (cad : ℤ) (ts : List ℤ)
    (h : List.Chain' (fun a b => b - a = cad) ts) :
    contigFilter cad ts = ts.tail := by
  cases ts with
  | nil => rfl
  | cons x xs =>
    rw [contigFilter_cons]
    induction xs generalizing x with
    | nil => rfl
    | cons y ys ih =>
      have h1 : y - x = cad := (List.chain'_cons.mp h).1
      have h2 : List.Chain' (fun a b => b - a = cad) (y :: ys) :=
        (List.chain'_cons.mp h).2
      simp only [diffGo, List.zip_cons_cons, List.filter_cons, h1]
      simpa using ih y h2

theorem filterTickers_mem (minSamples : ℕ) (rows : List Row) (r : Row) :
    r ∈ filterTickers minSamples rows ↔
      r ∈ rows ∧ minSamples < tickerRowCount rows r.ticker := by
  simp [filterTickers]

theorem add_targets_cons₂ (c d : ℚ) (tl : List ℚ) :
    add_targets (c :: d :: tl) =
      mkTgtRow c (some d) :: add_targets (d :: tl) := by
  simp [add_targets, withNext, mkTgtRow]

@[simp] theorem add_targets_length (xs : List ℚ) :
    (add_targets xs).length = xs.length - 1 := by
  induction xs with
  | nil => rfl
  | cons c tl ih =>
    cases tl with
    | nil => rfl
    | cons d tl' =>
      rw [add_targets_cons₂]
      simp at ih ⊢
      omega

theorem add_targets_getElem (xs : List ℚ) (t : ℕ) (c d : ℚ)
    (hc : xs[t]? = some c) (hd : xs[t + 1]? = some d) :
    (add_targets xs)[t]? = some (mkTgtRow c (some d)) := by
  induction xs generalizing t with
  | nil => simp at hc
  | cons a as ih =>
    cases as with
    | nil => simp at hd
    | cons b bs =>
      rw [add_targets_cons₂]
      cases t with
      | zero =>
        simp at hc hd
        subst hc hd
        simp
      | succ s =>
        simp at hc hd ⊢
        exact ih s hc (by simpa using hd)

theorem add_targets_fwd_some (xs : List ℚ) (r : TgtRow)
    (hr : r ∈ add_targets xs) : r.close_fwd_1.isSome := by
  unfold add_targets at hr
  simpa using (List.mem_filter.mp hr).2

theorem rolling_agg_getElem (w m : ℕ) (f : List ℚ → ℚ) (xs : List ℚ) (t : ℕ)
    (ht : t < xs.length) :
    (rolling_agg w m f xs)[t]? =
      some (if m ≤ min (t + 1) w then some (f (windowAt w xs t)) else none) := by
  unfold rolling_agg
  rw [List.getElem?_map]
  simp [List.getElem?_range, ht]

theorem rolling_agg_null (w m : ℕ) (f : List ℚ → ℚ) (xs : List ℚ) (t : ℕ)
    (ht : t < xs.length) (hw : t + 1 < m) :
    (rolling_agg w m f xs)[t]? = some none := by
  rw [rolling_agg_getElem w m f xs t ht]
  have : ¬ m ≤ min (t + 1) w := by omega
  simp [this]

theorem rolling_agg_full (w m : ℕ) (f : List ℚ → ℚ) (xs : List ℚ) (t : ℕ)
    (ht : t < xs.length) (hm : m ≤ w) (hw : w ≤ t + 1) :
    (rolling_agg w m f xs)[t]? =
        some (some (f ((xs.drop (t + 1 - w)).take w))) ∧
      ((xs.drop (t + 1 - w)).take w).length = w := by
  constructor
  · rw [rolling_agg_getElem w m f xs t ht]
    have hcond : m ≤ min (t + 1) w := by omega
    have hwin : windowAt w xs t = (xs.drop (t + 1 - w)).take w := by
      unfold windowAt
      rw [List.drop_take]
      congr 1
      omega
    simp [hcond, hwin]
  · simp
    omega

theorem emaFrom_nonneg (α p : ℚ) (xs : List ℚ) (hα0 : 0 ≤ α) (hα1 : α ≤ 1)
    (hp : 0 ≤ p) (hxs : ∀ x ∈ xs, 0 ≤ x) : ∀ y ∈ emaFrom α p xs, 0 ≤ y := by
  induction xs generalizing p with
  | nil => simp [emaFrom]
  | cons a as ih =>
    intro y hy
    have ha : 0 ≤ a := hxs a (by simp)
    have hy0 : 0 ≤ α * a + (1 - α) * p :=
      add_nonneg (mul_nonneg hα0 ha) (mul_nonneg (by linarith) hp)
    simp only [emaFrom, List.mem_cons] at hy
    rcases hy with rfl | hy
    · exact hy0
    · exact ih (α * a + (1 - α) * p) hy0 (fun x hx => hxs x (by simp [hx])) y hy

theorem ewm_mean_nonneg (α : ℚ) (xs : List ℚ) (hα0 : 0 ≤ α) (hα1 : α ≤ 1)
    (hxs : ∀ x ∈ xs, 0 ≤ x) : ∀ y ∈ ewm_mean α xs, 0 ≤ y := by
  cases xs with
  | nil => simp [ewm_mean]
  | cons x tl =>
    intro y hy
    simp only [ewm_mean, List.mem_cons] at hy
    rcases hy with rfl | hy
    · exact hxs y (by simp)
    · exact emaFrom_nonneg α x tl hα0 hα1 (hxs x (by simp))
        (fun z hz => hxs z (by simp [hz])) y hy

theorem emaAlpha_pos (w : ℕ) : 0 < emaAlpha w := by
  unfold emaAlpha
  positivity

theorem emaAlpha_le_one (w : ℕ) (hw : 1 ≤ w) : emaAlpha w ≤ 1 := by
  unfold emaAlpha
  rw [div_le_one (by positivity)]
  have h1 : (1 : ℚ) ≤ (w : ℚ) := by exact_mod_cast hw
  linarith

theorem rsi_gains_nonneg (xs : List ℚ) : ∀ y ∈ rsi_gains xs, 0 ≤ y := by
  intro y hy
  simp only [rsi_gains, List.mem_map] at hy
  obtain ⟨d, _, rfl⟩ := hy
  exact le_max_right d 0

theorem rsi_losses_nonneg (xs : List ℚ) : ∀ y ∈ rsi_losses xs, 0 ≤ y := by
  intro y hy
  simp only [rsi_losses, List.mem_map] at hy
  obtain ⟨d, _, rfl⟩ := hy
  exact le_max_right (-d) 0

theorem add_rsi_getElem_succ (α : ℚ) (xs : List ℚ) (t : ℕ) (g l : ℚ)
    (hg : (ewm_mean α (rsi_gains xs))[t]? = some g)
    (hl : (ewm_mean α (rsi_losses xs))[t]? = some l) :
    (add_rsi α xs)[t + 1]? = some (rsiVal (.fin g) (.fin l)) := by
  cases xs with
  | nil => simp [rsi_gains, rsi_deltas, ewm_mean] at hg
  | cons x tl =>
    unfold add_rsi
    apply zipWith_getElem_some
    · simp [hg]
    · simp [hl]

/-! ## Claim theorems -/

/-- C1 (counterexample): the contiguity filter does NOT make consecutive
retained bars cadence-separated.  On the strictly increasing single-ticker
timestamp column [0, 5, 17, 22] (minutes, cadence 5) the filter keeps
[5, 22] — the bar at 22 is verified against the dropped bar at 17 — and the
output's one consecutive pair has delta 17 ≠ 5. -/
theorem contigFilter_not_pairwise_cex :
    List.Chain' (fun a b => a < b) ([0, 5, 17, 22] : List ℤ) ∧
    contigFilter 5 [0, 5, 17, 22] = [5, 22] ∧
    ¬ List.Chain' (fun a b => b - a = 5) (contigFilter 5 [0, 5, 17, 22]) := by
  refine ⟨?_, by decide, ?_⟩
  · norm_num [List.chain'_cons, List.chain'_singleton]
  · rw [(by decide : contigFilter 5 [0, 5, 17, 22] = [5, 22])]
    norm_num [List.chain'_cons, List.chain'_singleton]

/-- C1 (amended): every bar retained by the contiguity filter lies exactly
one cadence after its immediate predecessor in the pre-filter per-ticker
column (each retained bar closes a verified consecutive pair of the input);
and whenever the input partition is gap-free the filter drops exactly the
unverifiable first bar, so the output is strictly contiguous.  Consecutive
retained bars of a gappy partition may be farther apart. -/
theorem contigFilter_spec (cad : ℤ) (ts : List ℤ) :
    (∀ b ∈ contigFilter cad ts, b - cad ∈ ts) ∧
    (List.Chain' (fun a b => b - a = cad) ts → contigFilter cad ts = ts.tail) :=
  ⟨fun b hb => contigFilter_mem_pred cad ts b hb,
   fun h => contigFilter_chain cad ts h⟩

theorem contigFilter_spec_witness :
    ((22 : ℤ) - 5 ∈ ([0, 5, 17, 22] : List ℤ)) ∧
    contigFilter 5 [10, 15, 20] = [15, 20] :=
  ⟨(contigFilter_spec 5 [0, 5, 17, 22]).1 22 (by decide),
   (contigFilter_spec 5 [10, 15, 20]).2
     (by norm_num [List.chain'_cons, List.chain'_singleton])⟩

/-- C9: the ticker-sufficiency filter keeps a row iff its ticker's row count
strictly exceeds `min_samples_per_ticker`; a ticker with exactly that many
rows loses all its rows (and the filter is a total function — no error). -/
theorem filterTickers_spec (minSamples : ℕ) (rows : List Row) :
    (∀ r, r ∈ filterTickers minSamples rows ↔
      r ∈ rows ∧ minSamples < tickerRowCount rows r.ticker) ∧
    (∀ tk, tickerRowCount rows tk = minSamples →
      ∀ r ∈ filterTickers minSamples rows, r.ticker ≠ tk) := by
  constructor
  · exact fun r => filterTickers_mem minSamples rows r
  · intro tk htk r hr hticker
    have h := ((filterTickers_mem minSamples rows r).mp hr).2
    rw [hticker, htk] at h
    exact lt_irrefl _ h

theorem filterTickers_spec_witness :
    ((⟨"B", 0, 1⟩ : Row) ∈ filterTickers 2
      [⟨"A", 0, 1⟩, ⟨"A", 5, 1⟩, ⟨"B", 0, 1⟩, ⟨"B", 5, 1⟩, ⟨"B", 10, 1⟩]) ∧
    ((⟨"A", 0, 1⟩ : Row) ∉ filterTickers 2
      [⟨"A", 0, 1⟩, ⟨"A", 5, 1⟩, ⟨"B", 0, 1⟩, ⟨"B", 5, 1⟩, ⟨"B", 10, 1⟩]) :=
  ⟨((filterTickers_spec 2
        [⟨"A", 0, 1⟩, ⟨"A", 5, 1⟩, ⟨"B", 0, 1⟩, ⟨"B", 5, 1⟩, ⟨"B", 10, 1⟩]).1
      ⟨"B", 0, 1⟩).mpr ⟨by decide, by decide⟩,
   fun h =>
    (filterTickers_spec 2
        [⟨"A", 0, 1⟩, ⟨"A", 5, 1⟩, ⟨"B", 0, 1⟩, ⟨"B", 5, 1⟩, ⟨"B", 10, 1⟩]).2
      "A" (by decide) ⟨"A", 0, 1⟩ h rfl⟩

/-- C2: the target builder yields one row per input bar except each
partition's last; output row `t` carries `CLOSE_FWD_1 =` next bar's close,
`RET_FWD_1 = (CLOSE_FWD_1 - CLOSE)/CLOSE` (finite value `(d-c)/c` whenever
`CLOSE ≠ 0`), and `UP_NEXT = 1` iff the next close is strictly greater
(ties give 0); every surviving row has a non-null `CLOSE_FWD_1` (the
null-forward terminal row is dropped). -/
theorem add_targets_spec (xs : List ℚ) :
    (add_targets xs).length = xs.length - 1 ∧
    (∀ r ∈ add_targets xs, r.close_fwd_1.isSome) ∧
    (∀ t c d, xs[t]? = some c → xs[t + 1]? = some d →
      (add_targets xs)[t]? = some
        { close := c
          close_fwd_1 := some d
          ret_fwd_1 := some (FP.div (FP.sub (.fin d) (.fin c)) (.fin c))
          up_next := some (if c < d then (1 : ℤ) else 0) } ∧
      (c ≠ 0 →
        FP.div (FP.sub (.fin d) (.fin c)) (.fin c) = .fin ((d - c) / c))) := by
  refine ⟨add_targets_length xs, fun r hr => add_targets_fwd_some xs r hr, ?_⟩
  intro t c d hc hd
  constructor
  · exact add_targets_getElem xs t c d hc hd
  · intro hcne
    simp [FP.div, FP.sub, FP.add, FP.neg, hcne, sub_eq_add_neg]

/-- Witness for C2 at the spec's own example series [100, 102, 101]:
two output rows; row 0 has forward close 102, return 1/50 (= 0.02) and
`UP_NEXT = 1`. -/
theorem add_targets_spec_witness :
    (add_targets [100, 102, 101]).length = 3 - 1 ∧
    ((add_targets [100, 102, 101])[0]? = some
        { close := 100
          close_fwd_1 := some 102
          ret_fwd_1 := some (FP.div (FP.sub (.fin 102) (.fin 100)) (.fin 100))
          up_next := some (if (100 : ℚ) < 102 then (1 : ℤ) else 0) } ∧
      ((100 : ℚ) ≠ 0 →
        FP.div (FP.sub (.fin 102) (.fin 100)) (.fin 100) =
          .fin ((102 - 100) / 100))) ∧
    FP.div (FP.sub (.fin 102) (.fin 100)) (.fin 100) = .fin (1 / 50) ∧
    (if (100 : ℚ) < 102 then (1 : ℤ) else 0) = 1 :=
  ⟨(add_targets_spec [100, 102, 101]).1,
   (add_targets_spec [100, 102, 101]).2.2 0 100 102 rfl rfl,
   by norm_num [FP.div, FP.sub, FP.add, FP.neg], by norm_num⟩

/-- C8: a retained row with `CLOSE = 0` and a defined forward close stays in
the output and its `RET_FWD_1` is a concrete non-finite float (±∞ or NaN),
not zero and not a dropped row. -/
theorem ret_fwd_zero_close_spec (xs : List ℚ) (t : ℕ) (d : ℚ)
    (hc : xs[t]? = some 0) (hd : xs[t + 1]? = some d) :
    ∃ v : FP, (add_targets xs)[t]? = some
        { close := 0
          close_fwd_1 := some d
          ret_fwd_1 := some v
          up_next := some (if (0 : ℚ) < d then (1 : ℤ) else 0) } ∧
      ¬ v.isFinite := by
  refine ⟨FP.div (FP.sub (.fin d) (.fin 0)) (.fin 0),
    add_targets_getElem xs t 0 d hc hd, ?_⟩
  simp only [FP.sub, FP.add, FP.neg, neg_zero, add_zero, FP.div]
  split_ifs <;> simp [FP.isFinite]

theorem ret_fwd_zero_close_spec_witness :
    ∃ v : FP, (add_targets [0, 3])[0]? = some
        { close := 0
          close_fwd_1 := some 3
          ret_fwd_1 := some v
          up_next := some (if (0 : ℚ) < 3 then (1 : ℤ) else 0) } ∧
      ¬ v.isFinite :=
  ret_fwd_zero_close_spec [0, 3] 0 3 rfl rfl

/-- C3: with `α = 2/(span+1)`, the EMA column of `add_ema` satisfies
`EMA[0] = x[0]` and `EMA[t+1] = α·x[t+1] + (1-α)·EMA[t]` within every ticker
partition, and the chain resets at ticker boundaries: the frame operation
distributes over partition concatenation and computes each partition's
column from that partition's own closes only. -/
theorem ewm_mean_ema_spec (span : ℕ) :
    emaAlpha span = 2 / (span + 1) ∧
    (∀ (x : ℚ) (xs : List ℚ), (ewm_mean (emaAlpha span) (x :: xs))[0]? = some x) ∧
    (∀ (xs : List ℚ) (t : ℕ) (x y : ℚ), xs[t + 1]? = some x →
      (ewm_mean (emaAlpha span) xs)[t]? = some y →
      (ewm_mean (emaAlpha span) xs)[t + 1]? =
        some (emaAlpha span * x + (1 - emaAlpha span) * y)) ∧
    (∀ f1 f2, add_ema_frame (emaAlpha span) (f1 ++ f2) =
      add_ema_frame (emaAlpha span) f1 ++ add_ema_frame (emaAlpha span) f2) ∧
    (∀ (f : List (String × List ℚ)) (p : String × List ℚ), p ∈ f →
      (p.1, p.2, ewm_mean (emaAlpha span) p.2) ∈ add_ema_frame (emaAlpha span) f) := by
  refine ⟨rfl, ?_, ?_, ?_, ?_⟩
  · intro x xs; exact ewm_mean_head (emaAlpha span) x xs
  · intro xs t x y hx hy; exact ewm_mean_rec (emaAlpha span) xs t x y hx hy
  · intro f1 f2; simp [add_ema_frame]
  · intro f p hp; exact List.mem_map.mpr ⟨p, hp, rfl⟩

/-- Witness for C3 with span 3 (α = 1/2) on the series [4, 8]:
EMA[1] = 1/2·8 + 1/2·4 = 6. -/
theorem ewm_mean_ema_spec_witness :
    (ewm_mean (emaAlpha 3) [4, 8])[1]? =
      some (emaAlpha 3 * 8 + (1 - emaAlpha 3) * 4) ∧
    (ewm_mean (emaAlpha 3) [4, 8])[1]? = some 6 :=
  ⟨(ewm_mean_ema_spec 3).2.2.1 [4, 8] 0 8 4 rfl rfl,
   by norm_num [ewm_mean, emaFrom, emaAlpha]⟩

/-- C6: `SMA_w` is null at each of the first `w-1` rows of a partition and
from row `w-1` on equals the arithmetic mean of the trailing `w` values
(the trailing window has exactly `w` elements). -/
theorem add_sma_spec (w : ℕ) (xs : List ℚ) (t : ℕ) (ht : t < xs.length) :
    (t + 1 < w → (add_sma w xs)[t]? = some none) ∧
    (w ≤ t + 1 →
      (add_sma w xs)[t]? =
        some (some (((xs.drop (t + 1 - w)).take w).sum / (w : ℚ))) ∧
      ((xs.drop (t + 1 - w)).take w).length = w) := by
  constructor
  · intro h
    exact rolling_agg_null w w listMean xs t ht h
  · intro h
    obtain ⟨h1, h2⟩ := rolling_agg_full w w listMean xs t ht le_rfl h
    refine ⟨?_, h2⟩
    have h3 : (add_sma w xs)[t]? =
        some (some (listMean ((xs.drop (t + 1 - w)).take w))) := h1
    rw [h3]
    simp only [listMean, h2]

/-- Witness for C6 with w = 2 on [1, 5, 9]: row 0 is null, row 2 is the mean
7 of the trailing window [5, 9]. -/
theorem add_sma_spec_witness :
    (add_sma 2 [1, 5, 9])[0]? = some none ∧
    (add_sma 2 [1, 5, 9])[2]? =
      some (some ((([1, 5, 9].drop (2 + 1 - 2)).take 2).sum / ((2 : ℕ) : ℚ))) ∧
    (add_sma 2 [1, 5, 9])[2]? = some (some 7) :=
  ⟨(add_sma_spec 2 [1, 5, 9] 0 (by norm_num)).1 (by norm_num),
   ((add_sma_spec 2 [1, 5, 9] 2 (by norm_num)).2 (by norm_num)).1,
   by norm_num [add_sma, rolling_agg, windowAt, listMean, List.range_succ]⟩

/-- C7 (counterexample): `add_bollinger_bands` does NOT use
partial/available-window semantics.  With window 3 on [1, 2, 3, 4] the
rolling mean and rolling std (squared) are null at the first `w-1 = 2` rows
— polars defaults `min_periods` to `window_size` when it is omitted — so
the BB columns cannot emit values there. -/
theorem bollinger_partial_window_cex :
    bollinger_mid 3 [1, 2, 3, 4] = [none, none, some 2, some 3] ∧
    bollinger_stdsq 3 [1, 2, 3, 4] = [none, none, some 1, some 1] := by
  constructor
  · norm_num [bollinger_mid, rolling_agg, windowAt, listMean, List.range_succ]
  · norm_num [bollinger_stdsq, rolling_agg, windowAt, sampleVar, listMean,
      List.range_succ]

/-- C7 (amended): `add_bollinger_bands`' rolling mean and rolling std run
with polars' default `min_periods = window_size`, so `BB_MID_{w}` and the
std column are null at each of the first `w-1` rows of a ticker partition —
exactly the SMA convention; and since the bands combine mid and std with
null propagation, `BB_UPPER_{w}`/`BB_LOWER_{w}` are null there as well,
whatever the std values are.  There is no partial-window asymmetry. -/
theorem bollinger_full_window_spec (w : ℕ) (k : ℚ) (xs : List ℚ) (t : ℕ)
    (ht : t < xs.length) (hw : t + 1 < w) :
    (bollinger_mid w xs)[t]? = some none ∧
    (bollinger_stdsq w xs)[t]? = some none ∧
    (∀ (stdc : List (Option ℚ)) (s : Option ℚ), stdc[t]? = some s →
      (List.zipWith (optBand k) (bollinger_mid w xs) stdc)[t]? = some none) := by
  have h1 : (bollinger_mid w xs)[t]? = some none :=
    rolling_agg_null w w listMean xs t ht hw
  have h2 : (bollinger_stdsq w xs)[t]? = some none :=
    rolling_agg_null w w sampleVar xs t ht hw
  refine ⟨h1, h2, ?_⟩
  intro stdc s hs
  have hz := zipWith_getElem_some (optBand k) (bollinger_mid w xs) stdc t
    none s h1 hs
  cases s <;> simpa [optBand] using hz

theorem bollinger_full_window_spec_witness :
    (bollinger_mid 3 [1, 2, 3, 4])[1]? = some none ∧
    (bollinger_stdsq 3 [1, 2, 3, 4])[1]? = some none :=
  ⟨(bollinger_full_window_spec 3 2 [1, 2, 3, 4] 1 (by norm_num)
      (by norm_num)).1,
   (bollinger_full_window_spec 3 2 [1, 2, 3, 4] 1 (by norm_num)
      (by norm_num)).2.1⟩

/-- C5: in `add_macd` with the default spans, `MACD` is pointwise the
span-12 EMA minus the span-26 EMA of the source column, `MACD_HIST` is
pointwise exactly `MACD - MACD_SIGNAL`, and `MACD_SIGNAL` is the span-9
non-adjusted EMA of the materialized `MACD` column — seeded from the first
MACD value of the partition and obeying the EMA recursion on MACD values,
not on raw prices. -/
theorem add_macd_spec (xs : List ℚ) :
    (∀ (t : ℕ) (a b : ℚ), (ewm_mean (emaAlpha 12) xs)[t]? = some a →
      (ewm_mean (emaAlpha 26) xs)[t]? = some b →
      (add_macd 12 26 9 xs).1[t]? = some (a - b)) ∧
    (∀ (t : ℕ) (m s : ℚ), (add_macd 12 26 9 xs).1[t]? = some m →
      (add_macd 12 26 9 xs).2.1[t]? = some s →
      (add_macd 12 26 9 xs).2.2[t]? = some (m - s)) ∧
    (∀ (m0 : ℚ) (rest : List ℚ), (add_macd 12 26 9 xs).1 = m0 :: rest →
      (add_macd 12 26 9 xs).2.1[0]? = some m0) ∧
    (∀ (t : ℕ) (m s : ℚ), (add_macd 12 26 9 xs).1[t + 1]? = some m →
      (add_macd 12 26 9 xs).2.1[t]? = some s →
      (add_macd 12 26 9 xs).2.1[t + 1]? =
        some (emaAlpha 9 * m + (1 - emaAlpha 9) * s)) := by
  refine ⟨?_, ?_, ?_, ?_⟩
  · intro t a b ha hb
    exact zipWith_getElem_some (fun a b => a - b) _ _ t a b ha hb
  · intro t m s hm hs
    exact zipWith_getElem_some (fun a b => a - b) _ _ t m s hm hs
  · intro m0 rest hm
    show (ewm_mean (emaAlpha 9) (add_macd 12 26 9 xs).1)[0]? = some m0
    rw [hm]
    exact ewm_mean_head (emaAlpha 9) m0 rest
  · intro t m s hm hs
    exact ewm_mean_rec (emaAlpha 9) (add_macd 12 26 9 xs).1 t m s hm hs

/-- Witness for C5 on the series [1, 2]: MACD[0] = EMA12[0] - EMA26[0]
= 1 - 1, and the signal is seeded from MACD[0], i.e. MACD_SIGNAL[0] = 0. -/
theorem add_macd_spec_witness :
    (add_macd 12 26 9 [1, 2]).1[0]? = some (1 - 1) ∧
    (add_macd 12 26 9 [1, 2]).2.1[0]? = some 0 :=
  ⟨(add_macd_spec [1, 2]).1 0 1 1 rfl rfl,
   (add_macd_spec [1, 2]).2.2.1 0 [emaAlpha 12 * 2 + (1 - emaAlpha 12) * 1 -
      (emaAlpha 26 * 2 + (1 - emaAlpha 26) * 1)]
    (by norm_num [add_macd, ewm_mean, emaFrom])⟩

/-- C4: at every row where the smoothed chains are defined (row ≥ 1 of a
partition), `RSI_w` is a finite value in [0, 100] whenever `avg_loss ≠ 0`,
and is exactly the finite value 100 whenever `avg_loss = 0 < avg_gain`
(the `rs = ∞` limit resolves through IEEE arithmetic, no non-finite value
survives). -/
theorem rsi_bounds_spec (w : ℕ) (hw : 1 ≤ w) (xs : List ℚ) (t : ℕ) (g l : ℚ)
    (hg : (ewm_mean (emaAlpha w) (rsi_gains xs))[t]? = some g)
    (hl : (ewm_mean (emaAlpha w) (rsi_losses xs))[t]? = some l) :
    (l ≠ 0 → ∃ q : ℚ, (add_rsi (emaAlpha w) xs)[t + 1]? = some (.fin q) ∧
      0 ≤ q ∧ q ≤ 100) ∧
    (l = 0 → 0 < g → (add_rsi (emaAlpha w) xs)[t + 1]? = some (.fin 100)) := by
  have hrow := add_rsi_getElem_succ (emaAlpha w) xs t g l hg hl
  have hα0 : (0 : ℚ) ≤ emaAlpha w := le_of_lt (emaAlpha_pos w)
  have hα1 : emaAlpha w ≤ 1 := emaAlpha_le_one w hw
  have hg0 : 0 ≤ g := ewm_mean_nonneg _ _ hα0 hα1 (rsi_gains_nonneg xs) g
    (List.getElem?_mem hg)
  have hl0 : 0 ≤ l := ewm_mean_nonneg _ _ hα0 hα1 (rsi_losses_nonneg xs) l
    (List.getElem?_mem hl)
  constructor
  · intro hne
    have hlpos : 0 < l := lt_of_le_of_ne hl0 (Ne.symm hne)
    have hr0 : 0 ≤ g / l := div_nonneg hg0 (le_of_lt hlpos)
    have hd1 : (1 : ℚ) ≤ 1 + g / l := by linarith
    have hdne : (1 : ℚ) + g / l ≠ 0 := ne_of_gt (by linarith)
    have e1 : FP.div (.fin g) (.fin l) = .fin (g / l) := by
      simp [FP.div, hne]
    have e3 : FP.div (.fin 100) (.fin (1 + g / l)) =
        .fin (100 / (1 + g / l)) := by
      simp [FP.div, hdne]
    have e4 : FP.sub (.fin 100) (.fin (100 / (1 + g / l))) =
        .fin (100 - 100 / (1 + g / l)) := by
      simp [FP.sub, FP.add, FP.neg, sub_eq_add_neg]
    refine ⟨100 - 100 / (1 + g / l), ?_, ?_, ?_⟩
    · have e2 : FP.add (.fin 1) (.fin (g / l)) = .fin (1 + g / l) := by
        simp [FP.add]
      rw [hrow]
      unfold rsiVal
      rw [e1, e2, e3, e4]
    · have hle : 100 / (1 + g / l) ≤ 100 := div_le_self (by norm_num) hd1
      linarith
    · have hpos : 0 < 100 / (1 + g / l) := div_pos (by norm_num) (by linarith)
      linarith
  · intro hleq hgpos
    rw [hrow]
    unfold rsiVal
    rw [hleq]
    have e1 : FP.div (.fin g) (.fin 0) = .inf := by
      simp [FP.div, hgpos]
    rw [e1]
    simp [FP.add, FP.div, FP.sub, FP.neg]

/-- Witness for C4, window 14: on [1, 2] the losses chain is 0 with positive
gains, so RSI at row 1 is exactly 100; on [2, 1] the losses chain is
positive, so RSI at row 1 is a finite value of [0, 100]. -/
theorem rsi_bounds_spec_witness :
    ((add_rsi (emaAlpha 14) [1, 2])[1]? = some (.fin 100)) ∧
    (∃ q : ℚ, (add_rsi (emaAlpha 14) [2, 1])[1]? = some (.fin q) ∧
      0 ≤ q ∧ q ≤ 100) :=
  ⟨(rsi_bounds_spec 14 (by norm_num) [1, 2] 0 1 0
      (by norm_num [ewm_mean, rsi_gains, rsi_deltas])
      (by norm_num [ewm_mean, rsi_losses, rsi_deltas])).2 rfl (by norm_num),
   (rsi_bounds_spec 14 (by norm_num) [2, 1] 0 0 1
      (by norm_num [ewm_mean, rsi_gains, rsi_deltas])
      (by norm_num [ewm_mean, rsi_losses, rsi_deltas])).1 (by norm_num)⟩

/-- C10: in every ticker partition, the first row's RSI is NaN — the
missing first delta makes `avg_gain`/`avg_loss` NaN there — while at every
later row both chains carry finite rationals (the seed NaN does not
propagate past row 0) and equal the non-adjusted EMA of the valid
gains/losses, seeded from the second row's gain `max (x1-x0) 0` and loss
`max (-(x1-x0)) 0`. -/
theorem rsi_first_row_nan_spec (α : ℚ) (x0 x1 : ℚ) (rest : List ℚ) :
    (add_rsi α (x0 :: x1 :: rest))[0]? = some FP.nan ∧
    (ewm_mean α (rsi_gains (x0 :: x1 :: rest)))[0]? =
      some (max (x1 - x0) 0) ∧
    (ewm_mean α (rsi_losses (x0 :: x1 :: rest)))[0]? =
      some (max (-(x1 - x0)) 0) ∧
    (∀ t, t + 1 < (x0 :: x1 :: rest).length → ∃ g l : ℚ,
      (ewm_mean α (rsi_gains (x0 :: x1 :: rest)))[t]? = some g ∧
      (ewm_mean α (rsi_losses (x0 :: x1 :: rest)))[t]? = some l ∧
      (add_rsi α (x0 :: x1 :: rest))[t + 1]? =
        some (rsiVal (.fin g) (.fin l))) := by
  refine ⟨rfl, ?_, ?_, ?_⟩
  · simp [rsi_gains, rsi_deltas, ewm_mean]
  · simp [rsi_losses, rsi_deltas, ewm_mean]
  intro t ht
  have hglen : t < (ewm_mean α (rsi_gains (x0 :: x1 :: rest))).length := by
    simp [rsi_gains, rsi_deltas]
    simp at ht
    omega
  have hllen : t < (ewm_mean α (rsi_losses (x0 :: x1 :: rest))).length := by
    simp [rsi_losses, rsi_deltas]
    simp at ht
    omega
  refine ⟨(ewm_mean α (rsi_gains (x0 :: x1 :: rest))).get ⟨t, hglen⟩,
    (ewm_mean α (rsi_losses (x0 :: x1 :: rest))).get ⟨t, hllen⟩, ?_, ?_, ?_⟩
  · exact List.getElem?_eq_getElem hglen
  · exact List.getElem?_eq_getElem hllen
  · exact add_rsi_getElem_succ α (x0 :: x1 :: rest) t _ _
      (List.getElem?_eq_getElem hglen) (List.getElem?_eq_getElem hllen)

/-- Witness for C10 on the two-bar series [1, 3]: RSI at row 0 is NaN and
the gains chain at row 1 is seeded with `max (3-1) 0`. -/
theorem rsi_first_row_nan_spec_witness :
    (add_rsi (emaAlpha 14) [1, 3])[0]? = some FP.nan ∧
    (ewm_mean (emaAlpha 14) (rsi_gains [1, 3]))[0]? = some (max (3 - 1) 0) ∧
    (∃ g l : ℚ, (ewm_mean (emaAlpha 14) (rsi_gains [1, 3]))[0]? = some g ∧
      (ewm_mean (emaAlpha 14) (rsi_losses [1, 3]))[0]? = some l ∧
      (add_rsi (emaAlpha 14) [1, 3])[1]? = some (rsiVal (.fin g) (.fin l))) :=
  ⟨(rsi_first_row_nan_spec (emaAlpha 14) 1 3 []).1,
   (rsi_first_row_nan_spec (emaAlpha 14) 1 3 []).2.1,
   (rsi_first_row_nan_spec (emaAlpha 14) 1 3 []).2.2.2 0 (by norm_num)⟩
